import Mathlib

/-
Verification of the Fredalizer v4 detection pipeline.

The development shallowly embeds the core functions of the repository:
  processDetections     (src/hooks/useVisionEngine.ts, TemporalAggregator)
  calculateKeepRanges   (App component, RangeComplementer)
  getHsvRange, calibrateReference (visionCalibration, ReferenceCalibrator)
  scanFrame             (visionDetection, FrameScanner)
  the frame-acceptance throttle and the batch loop of processQueue.

Numeric values carried by the JavaScript source as IEEE doubles are modelled
as exact rationals; the decimal literals of the source (0.05, 0.1, 0.5, ...)
denote the corresponding exact rational constants here.  External OpenCV
capabilities (color conversion, contour extraction) are modelled as explicit
inputs, following the collaborator design of the specification.
-/

namespace Fredalizer

/-! ## Temporal aggregation: processDetections (useVisionEngine.ts lines 21-42) -/

/-- A contiguous detection interval, as produced by processDetections.
The source field named end is called stop here. -/
structure DetectionRange where
  start : ℚ
  stop : ℚ
  confidence : ℚ
deriving DecidableEq, Repr

/-- The flicker tolerance constant of processDetections (0.5 s). -/
def TOLERANCE : ℚ := 0.5

/-- The loop body of processDetections: start and prev track the open range,
the remaining sorted timestamps are consumed one by one.  Mirrors the
for-loop of useVisionEngine.ts lines 31-39, including the final push. -/
def detLoop (start prev : ℚ) : List ℚ → List DetectionRange
  | [] => [⟨start, prev, 1⟩]
  | curr :: rest =>
    if curr - prev > TOLERANCE then
      ⟨start, prev, 1⟩ :: detLoop curr curr rest
    else
      detLoop start curr rest

/-- Clusters a sorted timestamp list into ranges (the part of processDetections
after the copy-and-sort). -/
def rangesOfSorted : List ℚ → List DetectionRange
  | [] => []
  | t :: ts => detLoop t t ts

/-- processDetections from useVisionEngine.ts: copy the timestamps, sort them
ascending, and cluster them with the 0.5 s tolerance. -/
def processDetections (timestamps : List ℚ) : List DetectionRange :=
  rangesOfSorted timestamps.mergeSort

/-! ## Range complementation: calculateKeepRanges (App component lines 124-146) -/

/-- A keep interval; the source field named end is called stop here. -/
structure Range where
  start : ℚ
  stop : ℚ
deriving DecidableEq, Repr

/-- The safety margin constant of calculateKeepRanges (0.05 s). -/
def FRAME_MARGIN : ℚ := 0.05

/-- The cursor loop of calculateKeepRanges: the forEach over the sorted
detections followed by the final tail range.  Mirrors lines 133-143 of the
App component. -/
def keepLoop (duration : ℚ) (currentCursor : ℚ) : List DetectionRange → List Range
  | [] =>
    if currentCursor < duration - 0.1 then [⟨currentCursor, duration⟩] else []
  | det :: rest =>
    if max 0 (det.start - FRAME_MARGIN) > currentCursor + 0.1 then
      ⟨currentCursor, max 0 (det.start - FRAME_MARGIN)⟩ ::
        keepLoop duration (max currentCursor (min duration (det.stop + FRAME_MARGIN))) rest
    else
      keepLoop duration (max currentCursor (min duration (det.stop + FRAME_MARGIN))) rest

/-- calculateKeepRanges from the App component: special cases for zero
duration and no detections, then the cursor loop over the detections sorted
by start. -/
def calculateKeepRanges (detections : List DetectionRange) (duration : ℚ) : List Range :=
  if duration = 0 then []
  else if detections = [] then [⟨0, duration⟩]
  else keepLoop duration 0 (detections.mergeSort (fun a b => decide (a.start ≤ b.start)))

/-! ## Specification-side restatements of the two temporal algorithms

The following two definitions transcribe the prose of spec sections 4.3 and
4.4 (clustering with a current range end; cursor complementation with
difference-form guards and a named margin).  They are compared with the
source embeddings above. -/

/-- Clustering loop as worded by the spec: the open range is kept as a pair
of its start and its current end, and a subsequent timestamp extends the
range exactly when its gap from the current range end is at most 0.5 s. -/
def aggLoop (rangeStart currentRangeEnd : ℚ) : List ℚ → List DetectionRange
  | [] => [⟨rangeStart, currentRangeEnd, 1⟩]
  | t :: ts =>
    if t - currentRangeEnd ≤ 0.5 then aggLoop rangeStart t ts
    else ⟨rangeStart, currentRangeEnd, 1⟩ :: aggLoop t t ts

/-- TemporalAggregator as worded by the spec: sort ascending, open a range at
the first timestamp, run the clustering loop, empty input gives empty
output. -/
def processDetectionsSpec (timestamps : List ℚ) : List DetectionRange :=
  match timestamps.mergeSort with
  | [] => []
  | t :: ts => aggLoop t t ts

/-- Cursor loop as worded by the spec: emit when safeEnd minus cursor exceeds
0.1 s, advance the cursor, and after all detections emit a final range when
duration minus cursor exceeds 0.1 s.  The margin is a named parameter. -/
def complementLoop (duration margin cursor : ℚ) : List DetectionRange → List Range
  | [] => if duration - cursor > 0.1 then [⟨cursor, duration⟩] else []
  | det :: rest =>
    if max 0 (det.start - margin) - cursor > 0.1 then
      ⟨cursor, max 0 (det.start - margin)⟩ ::
        complementLoop duration margin (max cursor (min duration (det.stop + margin))) rest
    else
      complementLoop duration margin (max cursor (min duration (det.stop + margin))) rest

/-- RangeComplementer as worded by the spec, with margin fixed to 0.05 s and
the special cases for zero duration and zero detections. -/
def calculateKeepRangesSpec (detections : List DetectionRange) (duration : ℚ) : List Range :=
  if duration = 0 then []
  else if detections = [] then [⟨0, duration⟩]
  else
    complementLoop duration 0.05 0
      (detections.mergeSort (fun a b => decide (a.start ≤ b.start)))

/-- The two endpoints of every emitted range, in emission order; used to
state the idempotence property of the spec. -/
def endpoints (ranges : List DetectionRange) : List ℚ :=
  ranges.flatMap fun r => [r.start, r.stop]

unseal Nat.gcd Rat.ofScientific Rat.add Rat.sub Rat.mul Rat.inv List.merge List.mergeSort

/-! ## Helper lemmas for the temporal components -/

theorem detLoop_eq_aggLoop (ts : List ℚ) : ∀ s p, detLoop s p ts = aggLoop s p ts := by
  induction ts with
  | nil => intro s p; rfl
  | cons t ts ih =>
    intro s p
    simp only [detLoop, aggLoop, TOLERANCE]
    by_cases h : t - p ≤ (0.5 : ℚ)
    · rw [if_neg (not_lt.mpr h), if_pos h, ih]
    · rw [if_pos (not_le.mp h), if_neg h, ih]

theorem keepLoop_eq_complementLoop (dets : List DetectionRange) :
    ∀ duration cursor, keepLoop duration cursor dets = complementLoop duration 0.05 cursor dets := by
  induction dets with
  | nil =>
    intro duration cursor
    simp only [keepLoop, complementLoop]
    by_cases h : cursor < duration - 0.1
    · rw [if_pos h, if_pos (by linarith)]
    · rw [if_neg h, if_neg (by intro hc; exact h (by linarith))]
  | cons det rest ih =>
    intro duration cursor
    simp only [keepLoop, complementLoop, FRAME_MARGIN]
    by_cases h : max 0 (det.start - 0.05) > cursor + 0.1
    · rw [if_pos h, if_pos (by linarith), ih]
    · rw [if_neg h, if_neg (by intro hc; exact h (by linarith)), ih]

/-! ## Array objects: mutation model for the two sorting functions -/

/-- A JavaScript array object, that is, the mutable heap cell a variable
names.  A call that could mutate its argument is modelled by returning the
final contents of the cell alongside the function result. -/
structure ArrayObj (α : Type) where
  data : List α
deriving DecidableEq

/-- Models the spread copy given by three dots: a fresh object holding the
same elements. -/
def spreadCopy {α : Type} (a : ArrayObj α) : ArrayObj α := ⟨a.data⟩

/-- Models the JavaScript in-place sort method: it stably sorts the receiver
object (ascending by the comparator) and returns that same object. -/
def sortInPlace {α : Type} (le : α → α → Bool) (a : ArrayObj α) : ArrayObj α :=
  ⟨a.data.mergeSort le⟩

/-- processDetections at the level of array objects: the source applies the
in-place sort to a spread copy of timestamps, never to the argument object,
so the final contents of the argument cell are returned unchanged. -/
def processDetectionsObj (timestamps : ArrayObj ℚ) : ArrayObj ℚ × List DetectionRange :=
  (timestamps,
    rangesOfSorted (sortInPlace (fun a b => decide (a ≤ b)) (spreadCopy timestamps)).data)

/-- calculateKeepRanges at the level of array objects: the source likewise
sorts a spread copy of detections by start. -/
def calculateKeepRangesObj (detections : ArrayObj DetectionRange) (duration : ℚ) :
    ArrayObj DetectionRange × List Range :=
  (detections,
    if duration = 0 then []
    else if detections.data = [] then [⟨0, duration⟩]
    else keepLoop duration 0
      (sortInPlace (fun a b => decide (a.start ≤ b.start)) (spreadCopy detections)).data)

/-! ## Claim theorems for the temporal components -/

/-- C6: processDetections implements the clustering algorithm of the spec:
sort ascending, open a range at the first timestamp, extend the current
range end across gaps of at most 0.5 s, otherwise close it and open a new
one, emit the final open range; empty input yields empty output; and the
input [1.0, 1.2, 1.6, 5.0] yields exactly the ranges (1.0, 1.6) and
(5.0, 5.0). -/
theorem processDetections_clustering :
    (∀ ts, processDetections ts = processDetectionsSpec ts) ∧
    processDetections [] = [] ∧
    processDetections [1, 1.2, 1.6, 5] =
      [⟨1, 1.6, 1⟩, ⟨5, 5, 1⟩] := by
  refine ⟨?_, rfl, by decide⟩
  intro ts
  unfold processDetections processDetectionsSpec
  cases ts.mergeSort with
  | nil => rfl
  | cons t ts' => simpa [rangesOfSorted] using detLoop_eq_aggLoop ts' t t

/-- C5: calculateKeepRanges follows the cursor algorithm worded by the spec
(sorted detections, cursor from 0, safeEnd with margin 0.05, emission guards
in difference form with slack 0.1, final tail range); duration 10 with the
single detection (3,4) yields (0, 2.95) and (4.05, 10); zero detections
yield the full range; duration 0 yields the empty list. -/
theorem calculateKeepRanges_algorithm :
    (∀ dets duration, calculateKeepRanges dets duration = calculateKeepRangesSpec dets duration) ∧
    calculateKeepRanges [⟨3, 4, 1⟩] 10 = [⟨0, 2.95⟩, ⟨4.05, 10⟩] ∧
    (∀ duration, duration ≠ 0 → calculateKeepRanges [] duration = [⟨0, duration⟩]) ∧
    (∀ dets, calculateKeepRanges dets 0 = []) := by
  refine ⟨?_, by decide, ?_, ?_⟩
  · intro dets duration
    unfold calculateKeepRanges calculateKeepRangesSpec
    split_ifs
    · rfl
    · rfl
    · exact keepLoop_eq_complementLoop _ _ _
  · intro duration h
    simp [calculateKeepRanges, h]
  · intro dets
    simp [calculateKeepRanges]

theorem calculateKeepRanges_algorithm_witness :
    calculateKeepRanges [] 7 = [⟨0, 7⟩] :=
  calculateKeepRanges_algorithm.2.2.1 7 (by norm_num)

/-- C10: neither processDetections nor calculateKeepRanges mutates its input
array: at the object level the contents of the argument cell after the call
equal the original contents, and the computed results agree with the pure
functions. -/
theorem sort_copies_input :
    (∀ ts : List ℚ, (processDetectionsObj ⟨ts⟩).1.data = ts) ∧
    (∀ (dets : List DetectionRange) (duration : ℚ),
      (calculateKeepRangesObj ⟨dets⟩ duration).1.data = dets) ∧
    (∀ ts : List ℚ, (processDetectionsObj ⟨ts⟩).2 = processDetections ts) ∧
    (∀ (dets : List DetectionRange) (duration : ℚ),
      (calculateKeepRangesObj ⟨dets⟩ duration).2 = calculateKeepRanges dets duration) :=
  ⟨fun _ => rfl, fun _ _ => rfl, fun _ => rfl, fun _ _ => rfl⟩

/-! ## Invariants of the aggregated ranges and the endpoint round trip -/

theorem detLoop_inv (ts : List ℚ) : ∀ s p, s ≤ p → List.Chain' (· ≤ ·) (p :: ts) →
    (∀ r ∈ detLoop s p ts, r.start ≤ r.stop ∧ r.confidence = 1) ∧
    List.Chain' (fun a b => a.stop + 0.5 < b.start) (detLoop s p ts) ∧
    (detLoop s p ts).head?.map DetectionRange.start = some s := by
  induction ts with
  | nil =>
    intro s p hsp _
    refine ⟨?_, ?_, rfl⟩
    · intro r hr
      simp only [detLoop, List.mem_singleton] at hr
      subst hr
      exact ⟨hsp, rfl⟩
    · simp [detLoop]
  | cons t ts ih =>
    intro s p hsp hch
    obtain ⟨hpt, hch'⟩ := List.chain'_cons.mp hch
    simp only [detLoop, TOLERANCE]
    by_cases h : t - p > (0.5 : ℚ)
    · rw [if_pos h]
      obtain ⟨ih1, ih2, ih3⟩ := ih t t le_rfl hch'
      refine ⟨?_, ?_, rfl⟩
      · intro r hr
        rcases List.mem_cons.mp hr with hr | hr
        · subst hr; exact ⟨hsp, rfl⟩
        · exact ih1 r hr
      · refine List.chain'_cons'.mpr ⟨?_, ih2⟩
        intro y hy
        cases hd : (detLoop t t ts).head? with
        | none => simp [hd] at hy
        | some r =>
          rw [hd] at hy
          simp only [Option.mem_some_iff] at hy
          subst hy
          rw [hd] at ih3
          have hstart : r.start = t := by simpa using ih3
          rw [hstart]
          simpa using (by linarith : p + 0.5 < t)
    · rw [if_neg h]
      exact ih s t (le_trans hsp hpt) hch'

theorem processDetections_inv (ts : List ℚ) :
    (∀ r ∈ processDetections ts, r.start ≤ r.stop ∧ r.confidence = 1) ∧
    List.Chain' (fun a b => a.stop + 0.5 < b.start) (processDetections ts) := by
  unfold processDetections
  cases h : ts.mergeSort with
  | nil => simp [rangesOfSorted]
  | cons t ts' =>
    have hs : List.Chain' (· ≤ ·) (t :: ts') := by
      rw [← h]
      exact (List.sorted_mergeSort' ts).chain'
    obtain ⟨h1, h2, _⟩ := detLoop_inv ts' t t le_rfl hs
    exact ⟨h1, h2⟩

theorem endpoints_chain : ∀ R : List DetectionRange,
    (∀ r ∈ R, r.start ≤ r.stop) →
    List.Chain' (fun a b => a.stop + 0.5 < b.start) R →
    List.Chain' (· ≤ ·) (endpoints R)
  | [], _, _ => by simp [endpoints]
  | [r], h1, _ => by
    simp only [endpoints, List.flatMap_cons, List.flatMap_nil, List.cons_append,
      List.nil_append, List.append_nil]
    exact List.chain'_cons.mpr ⟨h1 r (by simp), List.chain'_singleton _⟩
  | r :: r' :: R, h1, h2 => by
    obtain ⟨hrel, htail⟩ := List.chain'_cons.mp h2
    have ih := endpoints_chain (r' :: R)
      (fun x hx => h1 x (List.mem_cons_of_mem _ hx)) htail
    simp only [endpoints, List.flatMap_cons, List.cons_append, List.nil_append] at ih ⊢
    exact List.chain'_cons.mpr ⟨h1 r (by simp),
      List.chain'_cons.mpr ⟨by linarith, ih⟩⟩

theorem eta_confidence (r : DetectionRange) (h : r.confidence = 1) :
    (⟨r.start, r.stop, 1⟩ : DetectionRange) = r := by
  cases r with
  | mk s e c =>
    have hc : c = 1 := h
    rw [hc]

theorem detLoop_roundTrip : ∀ (R : List DetectionRange) (r : DetectionRange),
    (∀ x ∈ r :: R, x.start ≤ x.stop ∧ x.confidence = 1 ∧ x.stop - x.start ≤ 0.5) →
    List.Chain' (fun a b => a.stop + 0.5 < b.start) (r :: R) →
    detLoop r.start r.start (r.stop :: endpoints R) = r :: R
  | [], r, h1, _ => by
    obtain ⟨_, hc, hlen⟩ := h1 r (by simp)
    simp only [endpoints, List.flatMap_nil]
    rw [detLoop, if_neg (by intro hgt; have hT : TOLERANCE = (0.5 : ℚ) := rfl; linarith)]
    rw [detLoop, eta_confidence r hc]
  | r' :: R, r, h1, h2 => by
    obtain ⟨_, hc, hlen⟩ := h1 r (by simp)
    obtain ⟨hrel, htail⟩ := List.chain'_cons.mp h2
    have ih := detLoop_roundTrip R r' (fun x hx => h1 x (List.mem_cons_of_mem _ hx)) htail
    simp only [endpoints, List.flatMap_cons, List.cons_append, List.nil_append]
    rw [detLoop, if_neg (by intro hgt; have hT : TOLERANCE = (0.5 : ℚ) := rfl; linarith)]
    rw [detLoop, if_pos (by have hT : TOLERANCE = (0.5 : ℚ) := rfl; linarith)]
    rw [eta_confidence r hc]
    simp only [endpoints] at ih
    rw [ih]

/-! ## Claim theorems for the idempotence property -/

/-- C2 counterexample: for the timestamp set [0, 0.5, 1] processDetections
emits the single range (0, 1), but run again on the endpoints [0, 1] it
splits them into two ranges, so it is not idempotent on the endpoints of its
own output. -/
theorem processDetections_not_idempotent_cex :
    processDetections (endpoints (processDetections [0, 0.5, 1])) ≠
      processDetections [0, 0.5, 1] := by decide

theorem processDetections_endpoints_fix (R : List DetectionRange)
    (h1 : ∀ r ∈ R, r.start ≤ r.stop ∧ r.confidence = 1)
    (hshort : ∀ r ∈ R, r.stop - r.start ≤ 0.5)
    (h2 : List.Chain' (fun a b => a.stop + 0.5 < b.start) R) :
    processDetections (endpoints R) = R := by
  have hsorted : List.Sorted (· ≤ ·) (endpoints R) :=
    (List.chain'_iff_pairwise).mp (endpoints_chain R (fun r hr => (h1 r hr).1) h2)
  unfold processDetections
  rw [List.mergeSort_eq_self hsorted]
  cases R with
  | nil => rfl
  | cons r R' =>
    have h := detLoop_roundTrip R' r
      (fun x hx => ⟨(h1 x hx).1, (h1 x hx).2, hshort x hx⟩) h2
    simp only [endpoints, List.flatMap_cons, List.cons_append, List.nil_append]
    simpa [rangesOfSorted, endpoints] using h

/-- C2 amended: processDetections is idempotent on the endpoints of its own
output whenever every emitted range spans at most the 0.5 s tolerance (a
range longer than the tolerance is split by the re-run, as the
counterexample shows). -/
theorem processDetections_idempotent_endpoints (ts : List ℚ)
    (hshort : ∀ r ∈ processDetections ts, r.stop - r.start ≤ 0.5) :
    processDetections (endpoints (processDetections ts)) = processDetections ts := by
  obtain ⟨h1, h2⟩ := processDetections_inv ts
  exact processDetections_endpoints_fix _ h1 hshort h2

theorem processDetections_idempotent_endpoints_witness :
    (∀ r ∈ processDetections [1, 5], r.stop - r.start ≤ 0.5) ∧
    processDetections (endpoints (processDetections [1, 5])) = processDetections [1, 5] :=
  ⟨by decide, processDetections_idempotent_endpoints [1, 5] (by decide)⟩

/-! ## Frame acceptance throttle (useVisionEngine.ts processFrame, lines 160-194) -/

/-- The minimum media-time spacing between accepted frames (0.1 s). -/
def SAMPLE_INTERVAL : ℚ := 0.1

/-- The acceptance throttle of processFrame: a decoded frame at media time t
is accepted exactly when t minus the last accepted media time is at least
SAMPLE_INTERVAL, in which case lastProcessedTime becomes t.  The list
argument is the stream of decoded-frame media times in callback order. -/
def acceptFrames (lastProcessedTime : ℚ) : List ℚ → List ℚ
  | [] => []
  | t :: ts =>
    if t - lastProcessedTime ≥ SAMPLE_INTERVAL then t :: acceptFrames t ts
    else acceptFrames lastProcessedTime ts

/-- One video scan run: lastProcessedTimeRef starts at -1, every accepted
frame is scanned, and the media times of the positive scans are appended to
the raw detection set. -/
def scanRun (detect : ℚ → Bool) (mediaTimes : List ℚ) : List ℚ :=
  (acceptFrames (-1) mediaTimes).filter detect

theorem acceptFrames_inv (ts : List ℚ) : ∀ last,
    (∀ x ∈ acceptFrames last ts, last + 0.1 ≤ x) ∧
    (acceptFrames last ts).Pairwise (fun a b => a + 0.1 ≤ b) := by
  induction ts with
  | nil => intro last; simp [acceptFrames]
  | cons t ts ih =>
    intro last
    simp only [acceptFrames, SAMPLE_INTERVAL]
    by_cases h : t - last ≥ (0.1 : ℚ)
    · rw [if_pos h]
      obtain ⟨ih1, ih2⟩ := ih t
      constructor
      · intro x hx
        rcases List.mem_cons.mp hx with hx | hx
        · subst hx; linarith
        · have := ih1 x hx; linarith
      · exact List.pairwise_cons.mpr ⟨fun x hx => ih1 x hx, ih2⟩
    · rw [if_neg h]
      exact ih last

/-- C9: the throttle accepts a decoded frame only when its media time is at
least the 0.1 s sampling interval past the last accepted frame, so the
accepted media times of one run are pairwise at least 0.1 s apart, and so
are the timestamps appended to the raw detection set. -/
theorem sampling_cadence (mediaTimes : List ℚ) (detect : ℚ → Bool) :
    (acceptFrames (-1) mediaTimes).Pairwise (fun a b => a + 0.1 ≤ b) ∧
    (scanRun detect mediaTimes).Pairwise (fun a b => a + 0.1 ≤ b) :=
  ⟨(acceptFrames_inv mediaTimes (-1)).2,
    ((acceptFrames_inv mediaTimes (-1)).2).filter _⟩

/-! ## Batch orchestration (App component processQueue, useVisionEngine processVideo) -/

inductive ProcessingStatus where
  | PENDING
  | PROCESSING
  | COMPLETED
  | ERROR
deriving DecidableEq, Repr

/-- The per-item state that processQueue updates. -/
structure QueueItem where
  id : ℕ
  duration : ℚ
  status : ProcessingStatus
  progress : ℚ
  detections : List DetectionRange
  resultRanges : Option (List Range)
deriving DecidableEq, Repr

/-- The outcome of the inner scan work of processVideo for one video: either
the collected raw timestamps, or an error raised during calibration, decode
or scanning. -/
inductive ScanOutcome where
  | ok (timestamps : List ℚ)
  | failure
deriving DecidableEq, Repr

/-- processVideo from useVisionEngine.ts as seen by its caller: the whole
body sits in a try/catch whose catch block logs, flips the hook status to
error and falls through to return the empty list, so the returned promise
always resolves; a scan error yields the empty detection list, a clean run
yields the clustered detections (lines 218-238). -/
def processVideo : ScanOutcome → List DetectionRange
  | .ok ts => processDetections ts
  | .failure => []

/-- One iteration of the processQueue loop body for a non-completed item:
runVision is awaited (it always resolves, see processVideo), keep ranges are
computed, and the item is marked COMPLETED with progress 100; the catch
branch that would mark ERROR runs only if awaiting runVision itself threw. -/
def processQueueItem (item : QueueItem) (outcome : ScanOutcome) : QueueItem :=
  { item with
    status := .COMPLETED
    detections := processVideo outcome
    resultRanges := some (calculateKeepRanges (processVideo outcome) item.duration)
    progress := 100 }

/-- The processQueue loop: items are visited in order; items already
COMPLETED are skipped, every other item is processed with the outcome of its
scan; the loop body never throws, so every item is visited. -/
def processQueue (outcomes : ℕ → ScanOutcome) (items : List QueueItem) : List QueueItem :=
  items.mapIdx fun i item =>
    if item.status = .COMPLETED then item else processQueueItem item (outcomes i)

/-- C1 counterexample: a pending item whose scan fails inside processVideo
(decode or scan error) is marked COMPLETED by the batch loop, with empty
detections and the full-duration keep range, never ERROR. -/
theorem batch_scan_failure_cex :
    (processQueueItem ⟨0, 10, .PENDING, 0, [], none⟩ .failure).status =
      ProcessingStatus.COMPLETED ∧
    (processQueueItem ⟨0, 10, .PENDING, 0, [], none⟩ .failure).status ≠
      ProcessingStatus.ERROR ∧
    processQueue (fun _ => .failure) [⟨0, 10, .PENDING, 0, [], none⟩] =
      [⟨0, 10, .COMPLETED, 100, [], some [⟨0, 10⟩]⟩] := by
  refine ⟨rfl, by decide, by decide⟩

/-- C1 amended: an error during the scan of one item is recovered inside
processVideo, which resolves to an empty detection set; the batch loop then
marks the item COMPLETED (never ERROR through the scan path) and continues
with every remaining queued item, so no single bad input halts the batch. -/
theorem batch_failure_isolation :
    (∀ item outcome, (processQueueItem item outcome).status = ProcessingStatus.COMPLETED) ∧
    processVideo .failure = [] ∧
    (∀ outcomes items, (processQueue outcomes items).length = items.length) := by
  refine ⟨fun item outcome => rfl, rfl, fun outcomes items => ?_⟩
  simp [processQueue]

/-! ## Reference calibration (visionCalibration: getHsvRange, calibrateReference) -/

/-- An HSV bound pair as built by getHsvRange: four entries per bound, the
fourth being the unused alpha channel. -/
structure HSVRange where
  lower : List ℚ
  upper : List ℚ
deriving DecidableEq, Repr

/-- Per-channel tolerance for getHsvRange. -/
structure Tolerance where
  h : ℚ
  s : ℚ
  v : ℚ
deriving DecidableEq, Repr

/-- TARGET_COLORS.MENU_DARK: the deep purple panel background (RGB). -/
def MENU_DARK : List ℚ := [14, 4, 49]

/-- TARGET_COLORS.MENU_LIGHT: the lighter purple selection bar (RGB). -/
def MENU_LIGHT : List ℚ := [50, 4, 139]

/-- TARGET_COLORS.TEXT_WHITE (RGB). -/
def TEXT_WHITE : List ℚ := [255, 255, 255]

/-- Truncating rational remainder, matching the JavaScript remainder
operator on numbers. -/
def jsMod (a b : ℚ) : ℚ := a - b * ((if a / b < 0 then ⌈a / b⌉ else ⌊a / b⌋) : ℤ)

/-- getHsvRange from visionCalibration: converts an RGB triple to the OpenCV
HSV scale (hue 0-180, saturation and value 0-255) and widens it by the
per-channel tolerance, clamping every entry to its valid range.  The source
guards its last hue branch with an explicit comparison against the blue
channel; since the maximum always equals one of the three channels, the
final else here covers exactly that branch. -/
def getHsvRange (rgb : List ℚ) (tolerance : Tolerance) : HSVRange :=
  let r := rgb.getD 0 0 / 255
  let g := rgb.getD 1 0 / 255
  let b := rgb.getD 2 0 / 255
  let mx := max r (max g b)
  let mn := min r (min g b)
  let delta := mx - mn
  let h0 : ℚ :=
    if delta = 0 then 0
    else if mx = r then 60 * jsMod ((g - b) / delta) 6
    else if mx = g then 60 * ((b - r) / delta + 2)
    else 60 * ((r - g) / delta + 4)
  let h := if h0 < 0 then h0 + 360 else h0
  let s := if mx = 0 then 0 else delta / mx
  let v := mx
  let cvH := h / 2
  let cvS := s * 255
  let cvV := v * 255
  { lower := [max 0 (cvH - tolerance.h), max 0 (cvS - tolerance.s), max 0 (cvV - tolerance.v), 0]
    upper := [min 180 (cvH + tolerance.h), min 255 (cvS + tolerance.s), min 255 (cvV + tolerance.v), 255] }

/-- The static background bound of calibrateReference. -/
def darkBounds : HSVRange := getHsvRange MENU_DARK ⟨20, 50, 50⟩

/-- The static highlight bound of calibrateReference. -/
def lightBounds : HSVRange := getHsvRange MENU_LIGHT ⟨15, 50, 50⟩

/-- The static text bound of calibrateReference: a fixed low-saturation
high-value range written out literally in the source, not produced by
getHsvRange. -/
def whiteBounds : HSVRange := ⟨[0, 0, 200, 0], [180, 30, 255, 255]⟩

structure ColorBounds where
  dark : HSVRange
  light : HSVRange
  white : HSVRange
deriving DecidableEq, Repr

structure NormalizedBox where
  x : ℚ
  y : ℚ
  w : ℚ
  h : ℚ
deriving DecidableEq, Repr

structure SpatialTemplate where
  normalizedBox : NormalizedBox
  aspectRatio : ℚ
deriving DecidableEq, Repr

structure VisionProfile where
  bounds : ColorBounds
  spatial : SpatialTemplate
deriving DecidableEq, Repr

/-- A bounding rectangle as returned by the OpenCV boundingRect capability,
in pixel units. -/
structure BoundingRect where
  x : ℚ
  y : ℚ
  width : ℚ
  height : ℚ
deriving DecidableEq, Repr

/-- The reference image as seen through the external pixel-processing
collaborator: its pixel dimensions together with the contours extracted from
the binarized (threshold 200) grayscale image, each carrying its area and
its bounding rectangle. -/
structure CalibImage where
  cols : ℕ
  rows : ℕ
  contours : List (ℚ × BoundingRect)
deriving DecidableEq, Repr

inductive CalibrationError where
  | cvNotLoaded
  | noTarget
deriving DecidableEq, Repr

/-- The contour selection loop of calibrateReference: keeps the largest area
seen so far together with its bounding rectangle. -/
def bestContour (maxArea : ℚ) (bestRect : Option BoundingRect) :
    List (ℚ × BoundingRect) → ℚ × Option BoundingRect
  | [] => (maxArea, bestRect)
  | c :: rest =>
    if c.1 > maxArea then bestContour c.1 (some c.2) rest
    else bestContour maxArea bestRect rest

/-- calibrateReference from visionCalibration: static color bounds from the
hardcoded constants (the image is never consulted for them), spatial
template from the largest bright contour of the image normalized by the
image dimensions, and a CalibrationError when OpenCV is missing or when no
contour clears 0.1 percent of the image area. -/
def calibrateReference (cvLoaded : Bool) (image : CalibImage) :
    Except CalibrationError VisionProfile :=
  if !cvLoaded then .error .cvNotLoaded
  else
    match bestContour 0 none image.contours with
    | (maxArea, some bestRect) =>
      if maxArea > ((image.cols : ℚ) * image.rows) * 0.001 then
        .ok
          { bounds := ⟨darkBounds, lightBounds, whiteBounds⟩
            spatial :=
              { normalizedBox :=
                  { x := bestRect.x / image.cols
                    y := bestRect.y / image.rows
                    w := bestRect.width / image.cols
                    h := bestRect.height / image.rows }
                aspectRatio := bestRect.width / bestRect.height } }
      else .error .noTarget
    | (_, none) => .error .noTarget

/-! ## Claim theorems for the calibration component -/

/-- C4 counterexample: no tolerance with hue between 10 and 20 and with
saturation and value between 40 and 50 turns the white text constant into
the text bound the code actually uses, because the procedure would force the
upper saturation entry to equal the saturation tolerance (at least 40) while
the hardcoded bound carries 30 there. -/
theorem white_bound_not_tolerance_cex :
    ¬ ∃ tolerance : Tolerance,
      (10 ≤ tolerance.h ∧ tolerance.h ≤ 20) ∧
      (40 ≤ tolerance.s ∧ tolerance.s ≤ 50) ∧
      (40 ≤ tolerance.v ∧ tolerance.v ≤ 50) ∧
      getHsvRange TEXT_WHITE tolerance = whiteBounds := by
  rintro ⟨tol, ⟨hh1, hh2⟩, ⟨hs1, hs2⟩, ⟨hv1, hv2⟩, heq⟩
  have hup := congrArg (fun q => q.upper.getD 1 0) heq
  have hmin : min (255 : ℚ) tol.s = 30 := by
    simpa [getHsvRange, TEXT_WHITE, whiteBounds] using hup
  rw [min_eq_right (by linarith : tol.s ≤ (255 : ℚ))] at hmin
  linarith

/-- C4 amended: the color bounds of every profile returned by
calibrateReference are image-independent constants; the background and
highlight bounds are obtained from the fixed RGB panel colors through the
HSV conversion with hue tolerance 20 and 15 (each within 10 to 20) and
saturation and value tolerance 50 (within 40 to 50), all entries clamped to
the valid channel ranges, giving the explicit values below; the text bound
is the fixed low-saturation high-value range 0,0,200 to 180,30,255 and is
not produced by the tolerance procedure. -/
theorem calibrateReference_color_bounds (cvLoaded : Bool) (image : CalibImage)
    (p : VisionProfile) (h : calibrateReference cvLoaded image = .ok p) :
    p.bounds = ⟨darkBounds, lightBounds, whiteBounds⟩ ∧
    darkBounds = getHsvRange MENU_DARK ⟨20, 50, 50⟩ ∧
    lightBounds = getHsvRange MENU_LIGHT ⟨15, 50, 50⟩ ∧
    whiteBounds = ⟨[0, 0, 200, 0], [180, 30, 255, 255]⟩ ∧
    darkBounds = ⟨[320/3, 9025/49, 0, 0], [440/3, 255, 99, 255]⟩ ∧
    lightBounds = ⟨[1037/9, 27475/139, 89, 0], [1307/9, 255, 189, 255]⟩ := by
  refine ⟨?_, rfl, rfl, rfl, by decide, by decide⟩
  unfold calibrateReference at h
  split at h
  · exact absurd h (by simp)
  · split at h
    · split at h
      · simp only [Except.ok.injEq] at h
        subst h
        rfl
      · exact absurd h (by simp)
    · exact absurd h (by simp)

theorem calibrateReference_color_bounds_witness :
    calibrateReference true ⟨100, 100, [(2000, ⟨10, 10, 50, 40⟩)]⟩ =
      .ok ⟨⟨darkBounds, lightBounds, whiteBounds⟩, ⟨⟨1/10, 1/10, 1/2, 2/5⟩, 5/4⟩⟩ ∧
    (⟨⟨darkBounds, lightBounds, whiteBounds⟩, ⟨⟨1/10, 1/10, 1/2, 2/5⟩, 5/4⟩⟩ :
      VisionProfile).bounds = ⟨darkBounds, lightBounds, whiteBounds⟩ :=
  ⟨by rfl,
    (calibrateReference_color_bounds true ⟨100, 100, [(2000, ⟨10, 10, 50, 40⟩)]⟩
      ⟨⟨darkBounds, lightBounds, whiteBounds⟩, ⟨⟨1/10, 1/10, 1/2, 2/5⟩, 5/4⟩⟩
      (by rfl)).1⟩

theorem bestContour_pos : ∀ (cs : List (ℚ × BoundingRect)) (m : ℚ) (b : Option BoundingRect),
    (∀ c ∈ cs, 0 < c.1 → 0 < c.2.width ∧ 0 < c.2.height) →
    (∀ r, b = some r → 0 < m → 0 < r.width ∧ 0 < r.height) →
    ∀ m' r', bestContour m b cs = (m', some r') → 0 < m' →
      0 < r'.width ∧ 0 < r'.height
  | [], m, b, _, hb, m', r', heq, hm' => by
    simp only [bestContour, Prod.mk.injEq] at heq
    obtain ⟨rfl, hb'⟩ := heq
    exact hb r' hb' hm'
  | c :: cs, m, b, hcs, hb, m', r', heq, hm' => by
    simp only [bestContour] at heq
    by_cases h : c.1 > m
    · rw [if_pos h] at heq
      refine bestContour_pos cs c.1 (some c.2)
        (fun x hx => hcs x (List.mem_cons_of_mem _ hx)) ?_ m' r' heq hm'
      intro r hr hm
      obtain rfl : c.2 = r := by injection hr
      exact hcs c (by simp) hm
    · rw [if_neg h] at heq
      exact bestContour_pos cs m b
        (fun x hx => hcs x (List.mem_cons_of_mem _ hx)) hb m' r' heq hm'

/-- C8: calibrateReference fails with a CalibrationError whenever OpenCV is
unavailable, and whenever the largest bright contour area stays below 0.1
percent of the image area; no partial profile escapes: under the
collaborator guarantees (positive image dimensions; contours of positive
area have bounding rectangles of positive width and height) every
non-throwing call returns a profile carrying the static color bounds and a
spatial template with positive normalized width and height. -/
theorem calibrateReference_error_handling :
    (∀ image, calibrateReference false image = .error CalibrationError.cvNotLoaded) ∧
    (∀ image, (bestContour 0 none image.contours).1 < ((image.cols : ℚ) * image.rows) * 0.001 →
      ∃ e, calibrateReference true image = .error e) ∧
    (∀ image p, 0 < image.cols → 0 < image.rows →
      (∀ c ∈ image.contours, 0 < c.1 → 0 < c.2.width ∧ 0 < c.2.height) →
      calibrateReference true image = .ok p →
      p.bounds = ⟨darkBounds, lightBounds, whiteBounds⟩ ∧
      0 < p.spatial.normalizedBox.w ∧ 0 < p.spatial.normalizedBox.h) := by
  refine ⟨fun image => rfl, ?_, ?_⟩
  · intro image hlow
    unfold calibrateReference
    simp only [Bool.not_true, Bool.false_eq_true, if_false]
    rcases hbc : bestContour 0 none image.contours with ⟨maxArea, obr⟩
    rw [hbc] at hlow
    cases obr with
    | none => exact ⟨.noTarget, rfl⟩
    | some rect =>
      dsimp only
      rw [if_neg (not_lt.mpr (le_of_lt (by simpa using hlow)))]
      exact ⟨.noTarget, rfl⟩
  · intro image p hcols hrows hcontours h
    unfold calibrateReference at h
    rcases hbc : bestContour 0 none image.contours with ⟨maxArea, obr⟩
    rw [hbc] at h
    simp only [Bool.not_true, Bool.false_eq_true, if_false] at h
    cases obr with
    | none => exact absurd h (by simp)
    | some rect =>
      dsimp only at h
      by_cases harea : maxArea > ((image.cols : ℚ) * image.rows) * 0.001
      · rw [if_pos harea] at h
        simp only [Except.ok.injEq] at h
        subst h
        have htotal : (0 : ℚ) < ((image.cols : ℚ) * image.rows) * 0.001 := by
          have h1 : (0 : ℚ) < (image.cols : ℚ) := by exact_mod_cast hcols
          have h2 : (0 : ℚ) < (image.rows : ℚ) := by exact_mod_cast hrows
          positivity
        have hpos := bestContour_pos image.contours 0 none hcontours
          (fun r hr _ => by cases hr) maxArea rect hbc (lt_trans htotal harea)
        have h1 : (0 : ℚ) < (image.cols : ℚ) := by exact_mod_cast hcols
        have h2 : (0 : ℚ) < (image.rows : ℚ) := by exact_mod_cast hrows
        exact ⟨rfl, div_pos hpos.1 h1, div_pos hpos.2 h2⟩
      · rw [if_neg harea] at h
        exact absurd h (by simp)

theorem calibrateReference_error_handling_witness :
    calibrateReference false ⟨100, 100, []⟩ = .error CalibrationError.cvNotLoaded ∧
    (0:ℚ) <
      (⟨⟨darkBounds, lightBounds, whiteBounds⟩, ⟨⟨1/10, 1/10, 1/2, 2/5⟩, 5/4⟩⟩ :
        VisionProfile).spatial.normalizedBox.w :=
  ⟨calibrateReference_error_handling.1 ⟨100, 100, []⟩,
    (calibrateReference_error_handling.2.2 ⟨100, 100, [(2000, ⟨10, 10, 50, 40⟩)]⟩
      ⟨⟨darkBounds, lightBounds, whiteBounds⟩, ⟨⟨1/10, 1/10, 1/2, 2/5⟩, 5/4⟩⟩
      (by decide) (by decide) (by decide) (by rfl)).2.1⟩

/-! ## Frame scanning (visionDetection scanFrame) -/

/-- An RGBA pixel as read from the canvas. -/
structure RGBA where
  r : ℚ
  g : ℚ
  b : ℚ
  a : ℚ
deriving DecidableEq, Repr

/-- An HSV pixel on the OpenCV byte scale. -/
structure HSVPix where
  h : ℚ
  s : ℚ
  v : ℚ
deriving DecidableEq, Repr

/-- A decoded frame: pixel dimensions and the RGBA pixel at each coordinate
(column i, row j). -/
structure Frame where
  cols : ℕ
  rows : ℕ
  px : ℕ → ℕ → RGBA

/-- Membership of an HSV pixel between the first three entries of a bound
pair, as computed by the OpenCV inRange capability on a three-channel
matrix (the fourth, alpha, entry of each bound is ignored). -/
def inRange3 (lower upper : List ℚ) (p : HSVPix) : Bool :=
  decide (lower.getD 0 0 ≤ p.h ∧ p.h ≤ upper.getD 0 0 ∧
    lower.getD 1 0 ≤ p.s ∧ p.s ≤ upper.getD 1 0 ∧
    lower.getD 2 0 ≤ p.v ∧ p.v ≤ upper.getD 2 0)

/-- The padded, clamped region of interest of scanFrame, in pixel units,
returned as (x, y, w, h): the normalized box is scaled to the frame, padded
by 5 percent of the box on each axis, floored, then clamped to the frame
bounds exactly as in the source (x and y first, then the width and height
overflow checks against the clamped corner). -/
def roiRect (frame : Frame) (nb : NormalizedBox) : ℤ × ℤ × ℤ × ℤ :=
  let fw : ℚ := frame.cols
  let fh : ℚ := frame.rows
  let padW := nb.w * 0.05
  let padH := nb.h * 0.05
  let x0 : ℤ := ⌊(nb.x - padW / 2) * fw⌋
  let y0 : ℤ := ⌊(nb.y - padH / 2) * fh⌋
  let w0 : ℤ := ⌊(nb.w + padW) * fw⌋
  let h0 : ℤ := ⌊(nb.h + padH) * fh⌋
  let x := if x0 < 0 then 0 else x0
  let y := if y0 < 0 then 0 else y0
  let w := if x + w0 > (frame.cols : ℤ) then (frame.cols : ℤ) - x else w0
  let h := if y + h0 > (frame.rows : ℤ) then (frame.rows : ℤ) - y else h0
  (x, y, w, h)

/-- Number of ROI pixels whose converted HSV value lies within the given
bounds; cvt is the external color conversion (RGBA to RGB to HSV), and the
roi tuple is (x, y, w, h). -/
def countInBounds (cvt : RGBA → HSVPix) (frame : Frame) (bounds : HSVRange)
    (roi : ℤ × ℤ × ℤ × ℤ) : ℕ :=
  ((List.range roi.2.2.2.toNat).map fun j =>
    (List.range roi.2.2.1.toNat).countP fun i =>
      inRange3 bounds.lower bounds.upper
        (cvt (frame.px (roi.1.toNat + i) (roi.2.1.toNat + j)))).sum

/-- scanFrame from visionDetection: false when OpenCV is missing and false
when the clamped ROI has non-positive width or height; otherwise the dark
and white pixel counts over the ROI area decide the match with the two
strict thresholds 0.30 and 0.005. -/
def scanFrame (cvLoaded : Bool) (cvt : RGBA → HSVPix) (srcFrame : Frame)
    (profile : VisionProfile) : Bool :=
  if !cvLoaded then false
  else if (roiRect srcFrame profile.spatial.normalizedBox).2.2.1 ≤ 0 ∨
      (roiRect srcFrame profile.spatial.normalizedBox).2.2.2 ≤ 0 then false
  else
    decide
      ((countInBounds cvt srcFrame profile.bounds.dark
          (roiRect srcFrame profile.spatial.normalizedBox) : ℚ) /
        (((roiRect srcFrame profile.spatial.normalizedBox).2.2.1 *
          (roiRect srcFrame profile.spatial.normalizedBox).2.2.2 : ℤ) : ℚ) > 0.30 ∧
      (countInBounds cvt srcFrame profile.bounds.white
          (roiRect srcFrame profile.spatial.normalizedBox) : ℚ) /
        (((roiRect srcFrame profile.spatial.normalizedBox).2.2.1 *
          (roiRect srcFrame profile.spatial.normalizedBox).2.2.2 : ℤ) : ℚ) > 0.005)

/-- Fraction of ROI pixels within the given bounds, stated through a finite
coordinate set; the spec-side counterpart of the ratios computed inside
scanFrame. -/
def boundsRatio (cvt : RGBA → HSVPix) (frame : Frame) (bounds : HSVRange)
    (roi : ℤ × ℤ × ℤ × ℤ) : ℚ :=
  (((Finset.range roi.2.2.2.toNat ×ˢ Finset.range roi.2.2.1.toNat).filter fun q =>
      inRange3 bounds.lower bounds.upper
        (cvt (frame.px (roi.1.toNat + q.2) (roi.2.1.toNat + q.1))) = true).card : ℚ)
    / ((roi.2.2.1 * roi.2.2.2 : ℤ) : ℚ)

/-! ## Counting bridge lemmas -/

theorem countP_range_eq (n : ℕ) (q : ℕ → Bool) :
    (List.range n).countP q = ((Finset.range n).filter fun i => q i = true).card := by
  induction n with
  | zero => rfl
  | succ n ih =>
    rw [List.range_succ, List.countP_append, Finset.range_succ, Finset.filter_insert]
    by_cases h : q n = true
    · rw [if_pos h, Finset.card_insert_of_not_mem (by simp)]
      simp [h, ih]
    · rw [if_neg h]
      simp [List.countP_cons, h, ih]

theorem listSum_eq_finsetSum (m : ℕ) (f : ℕ → ℕ) :
    ((List.range m).map f).sum = ∑ j in Finset.range m, f j := by
  induction m with
  | zero => rfl
  | succ m ih =>
    rw [List.range_succ, List.map_append, List.sum_append, Finset.sum_range_succ, ih]
    simp

theorem sum_countP_eq_card (m n : ℕ) (p : ℕ → ℕ → Bool) :
    ((List.range m).map fun j => (List.range n).countP (p j)).sum =
      ((Finset.range m ×ˢ Finset.range n).filter fun q => p q.1 q.2 = true).card := by
  rw [Finset.card_filter, Finset.sum_product, listSum_eq_finsetSum]
  refine Finset.sum_congr rfl fun j _ => ?_
  rw [countP_range_eq, Finset.card_filter]

theorem countInBounds_eq_card (cvt : RGBA → HSVPix) (frame : Frame) (bounds : HSVRange)
    (roi : ℤ × ℤ × ℤ × ℤ) :
    countInBounds cvt frame bounds roi =
      ((Finset.range roi.2.2.2.toNat ×ˢ Finset.range roi.2.2.1.toNat).filter fun q =>
        inRange3 bounds.lower bounds.upper
          (cvt (frame.px (roi.1.toNat + q.2) (roi.2.1.toNat + q.1))) = true).card := by
  unfold countInBounds
  exact sum_countP_eq_card _ _ _

/-! ## Claim theorem for the frame scanner -/

/-- C7: scanFrame is positive exactly when the dark ratio over the padded
clamped ROI strictly exceeds 0.30 and the white ratio strictly exceeds
0.005, the ratios being the fractions of ROI pixels falling within the
background and text bounds of the profile; and an ROI that clamps to
non-positive width or height yields false rather than an error. -/
theorem scanFrame_thresholds (cvt : RGBA → HSVPix) (srcFrame : Frame)
    (profile : VisionProfile) :
    (((roiRect srcFrame profile.spatial.normalizedBox).2.2.1 ≤ 0 ∨
      (roiRect srcFrame profile.spatial.normalizedBox).2.2.2 ≤ 0) →
      scanFrame true cvt srcFrame profile = false) ∧
    (0 < (roiRect srcFrame profile.spatial.normalizedBox).2.2.1 →
      0 < (roiRect srcFrame profile.spatial.normalizedBox).2.2.2 →
      (scanFrame true cvt srcFrame profile = true ↔
        boundsRatio cvt srcFrame profile.bounds.dark
          (roiRect srcFrame profile.spatial.normalizedBox) > 0.30 ∧
        boundsRatio cvt srcFrame profile.bounds.white
          (roiRect srcFrame profile.spatial.normalizedBox) > 0.005)) := by
  constructor
  · intro h
    simp only [scanFrame, Bool.not_true, Bool.false_eq_true, if_false]
    rw [if_pos h]
  · intro hw hh
    simp only [scanFrame, Bool.not_true, Bool.false_eq_true, if_false]
    rw [if_neg (by push_neg; exact ⟨hw, hh⟩), decide_eq_true_iff]
    unfold boundsRatio
    rw [countInBounds_eq_card, countInBounds_eq_card]

/-- A demonstration conversion for the witness: reads the HSV triple
directly off the RGB channels. -/
def demoCvt : RGBA → HSVPix := fun p => ⟨p.r, p.g, p.b⟩

/-- A two by two frame whose corner pixel converts into the white text bound
and whose three other pixels convert into the dark background bound. -/
def demoFrame : Frame :=
  ⟨2, 2, fun i j => if i = 0 ∧ j = 0 then ⟨10, 5, 250, 255⟩ else ⟨130, 230, 20, 255⟩⟩

/-- A profile whose normalized box covers the whole frame. -/
def demoProfile : VisionProfile :=
  ⟨⟨darkBounds, lightBounds, whiteBounds⟩, ⟨⟨0, 0, 1, 1⟩, 1⟩⟩

theorem scanFrame_thresholds_witness :
    scanFrame true demoCvt demoFrame demoProfile = true :=
  ((scanFrame_thresholds demoCvt demoFrame demoProfile).2 (by decide) (by decide)).mpr
    (by decide)

/-! ## Keep range invariants -/

theorem keepLoop_inv : ∀ (dets : List DetectionRange) (duration cursor : ℚ),
    0 ≤ cursor →
    (∀ d ∈ dets, d.start ≤ d.stop ∧ d.stop ≤ duration) →
    (∀ r ∈ keepLoop duration cursor dets, cursor ≤ r.start ∧ r.start + 0.1 < r.stop) ∧
    (keepLoop duration cursor dets).Pairwise (fun a b => a.stop ≤ b.start) := by
  intro dets
  induction dets with
  | nil =>
    intro duration cursor hcur _
    simp only [keepLoop]
    by_cases h : cursor < duration - 0.1
    · rw [if_pos h]
      refine ⟨?_, List.pairwise_singleton _ _⟩
      intro r hr
      simp only [List.mem_singleton] at hr
      subst hr
      exact ⟨le_rfl, by linarith⟩
    · rw [if_neg h]
      simp
  | cons det rest ih =>
    intro duration cursor hcur hdets
    have hFM : FRAME_MARGIN = (0.05 : ℚ) := rfl
    obtain ⟨hse, hsd⟩ := hdets det (by simp)
    have h0 : 0 ≤ max cursor (min duration (det.stop + FRAME_MARGIN)) :=
      le_trans hcur (le_max_left _ _)
    have hsafe : max 0 (det.start - FRAME_MARGIN) ≤
        max cursor (min duration (det.stop + FRAME_MARGIN)) := by
      refine max_le h0 (le_trans ?_ (le_max_right _ _))
      exact le_min (by linarith) (by linarith)
    obtain ⟨ih1, ih2⟩ := ih duration (max cursor (min duration (det.stop + FRAME_MARGIN))) h0
      (fun d hd => hdets d (List.mem_cons_of_mem _ hd))
    simp only [keepLoop]
    by_cases hemit : max 0 (det.start - FRAME_MARGIN) > cursor + 0.1
    · rw [if_pos hemit]
      constructor
      · intro r hr
        rcases List.mem_cons.mp hr with hr | hr
        · subst hr
          exact ⟨le_rfl, hemit⟩
        · have := ih1 r hr
          exact ⟨le_trans (le_max_left _ _) this.1, this.2⟩
      · refine List.pairwise_cons.mpr ⟨?_, ih2⟩
        intro b hb
        exact le_trans hsafe (ih1 b hb).1
    · rw [if_neg hemit]
      refine ⟨?_, ih2⟩
      intro r hr
      have := ih1 r hr
      exact ⟨le_trans (le_max_left _ _) this.1, this.2⟩

/-- C3 counterexample: with no detections and duration 0.05 the returned
keep list is the single range (0, 0.05), whose length lies strictly between
0 and 0.1, so a sliver of length in that interval can appear in the
output. -/
theorem keepRanges_sliver_cex :
    calculateKeepRanges [] 0.05 = [⟨0, 0.05⟩] ∧
    (0 : ℚ) < 0.05 - 0 ∧ (0.05 - 0 : ℚ) ≤ 0.1 := by decide

/-- C3 amended: under the data model invariants (non-negative duration,
every detection with start at most end at most duration) the keep list is
sorted and non-overlapping with every range running forward; when at least
one detection is present every emitted range is strictly longer than 0.1 s,
while with no detections the single full range (0, duration) is returned for
any non-zero duration and may itself be a sliver, as the counterexample
shows. -/
theorem keepRanges_invariants (dets : List DetectionRange) (duration : ℚ)
    (hdur : 0 ≤ duration)
    (hdets : ∀ d ∈ dets, d.start ≤ d.stop ∧ d.stop ≤ duration) :
    (calculateKeepRanges dets duration).Pairwise (fun a b => a.stop ≤ b.start) ∧
    (∀ r ∈ calculateKeepRanges dets duration, r.start ≤ r.stop) ∧
    (dets ≠ [] → ∀ r ∈ calculateKeepRanges dets duration, r.start + 0.1 < r.stop) ∧
    (dets = [] → duration ≠ 0 → calculateKeepRanges dets duration = [⟨0, duration⟩]) := by
  unfold calculateKeepRanges
  by_cases hd0 : duration = 0
  · simp [hd0]
  · rw [if_neg hd0]
    by_cases hde : dets = []
    · rw [if_pos hde]
      refine ⟨List.pairwise_singleton _ _, ?_, fun hne => absurd hde hne, fun _ _ => rfl⟩
      intro r hr
      simp only [List.mem_singleton] at hr
      subst hr
      simpa using hdur
    · rw [if_neg hde]
      have hmem : ∀ d ∈ dets.mergeSort (fun a b => decide (a.start ≤ b.start)),
          d.start ≤ d.stop ∧ d.stop ≤ duration := by
        intro d hd
        exact hdets d ((List.mergeSort_perm dets _).mem_iff.mp hd)
      obtain ⟨h1, h2⟩ := keepLoop_inv _ duration 0 le_rfl hmem
      refine ⟨h2, ?_, ?_, fun he => absurd he hde⟩
      · intro r hr
        have := (h1 r hr).2
        linarith
      · intro _ r hr
        exact (h1 r hr).2

theorem keepRanges_invariants_witness :
    (calculateKeepRanges [⟨3, 4, 1⟩] 10).Pairwise (fun a b => a.stop ≤ b.start) :=
  (keepRanges_invariants [⟨3, 4, 1⟩] 10 (by decide) (by decide)).1

end Fredalizer
